import Mathlib

/-!
Verification development for the engineering-telemetry time-series model of
`jwql` (`jwql/edb/engineering_database.py`): the `EdbMnemonic` container and
its supporting functions (`__add__`, `__mul__`, `interpolate`,
`change_only_add_points`, `change_only_bounding_points`, `change_only_stats`).

Modelling conventions (shallow embedding):

* Timestamps (`datetime` objects) are rationals `ℚ`, measured in seconds; one
  microsecond is `1/1000000`.  `timedelta` arithmetic becomes plain rational
  arithmetic, which is exact where the Python code is exact.
* Telemetry values (`euvalues`) are rationals `ℚ`.  Where the source inserts
  `np.nan` (only in `change_only_bounding_points`), values are `Option ℚ`
  with `none` standing for NaN.
* An astropy `Table` with columns `dates` and `euvalues` is modelled as a
  pair of parallel lists; well-formed tables have columns of equal length,
  carried as a hypothesis where a theorem needs it.
* `blocks` is `Option (List Int)`: `none` models the `[None]` sentinel
  ("a single block covering everything"), `some bs` a real index array.
  Block entries are integers because the source shifts them by signed
  amounts.  The source never stores an empty real block array.
* Python exceptions are modelled with `Except String`; the string names the
  exception class raised by the source.
* `np.unique(arr, return_index=True)` is modelled by its documented
  semantics: the sorted list of distinct elements together with, for each,
  the index of its first occurrence in the input (numpy uses a stable sort
  when indices are requested).
* Python's `int()` on a nonnegative float is modelled as exact truncated
  rational division (`Int.tdiv` of numerator by denominator); float rounding
  error is ignored, as everywhere in this embedding.
-/

/-! ## Generic list helpers (numpy / python primitives) -/

/-- Minimum of a list of rationals, `np.min`; `0` on the empty list (where
the source would raise, callers guard non-emptiness). -/
def listMinQ : List ℚ → ℚ
  | [] => 0
  | x :: xs => xs.foldl min x

/-- Maximum of a list of rationals, `np.max`; `0` on the empty list. -/
def listMaxQ : List ℚ → ℚ
  | [] => 0
  | x :: xs => xs.foldl max x

/-- Indices (ascending) of the elements satisfying `p`: `np.where(p(arr))[0]`. -/
def idxWhere (p : α → Bool) : List α → List Nat
  | [] => []
  | x :: xs =>
    if p x then 0 :: (idxWhere p xs).map (· + 1) else (idxWhere p xs).map (· + 1)

/-- Python sequence indexing with negative-index wraparound, total version
with a default for out-of-range access (used only where the source index is
in range). -/
def pyGet (l : List α) (d : α) (i : Int) : α :=
  if 0 ≤ i then l.getD i.toNat d
  else l.getD (l.length - (-i).toNat) d

/-- Python sequence indexing with negative-index wraparound; out-of-range
access is an `IndexError`, as in Python. -/
def pyGetE (l : List α) (i : Int) : Except String α :=
  if h1 : 0 ≤ i ∧ i.toNat < l.length then .ok (l.get ⟨i.toNat, h1.2⟩)
  else if h2 : i < 0 ∧ (l.length - (-i).toNat < l.length ∧ (-i).toNat ≤ l.length) then
    .ok (l.get ⟨l.length - (-i).toNat, h2.2.1⟩)
  else .error "IndexError"

/-- Keep the first occurrence of every element, preserving order
(the accumulator holds the elements already seen). -/
def dedupFirstAux : List ℚ → List ℚ → List ℚ
  | _, [] => []
  | seen, x :: xs =>
    if x ∈ seen then dedupFirstAux seen xs
    else x :: dedupFirstAux (x :: seen) xs

/-- Distinct elements of a list, first occurrences, in input order. -/
def dedupFirst (l : List ℚ) : List ℚ := dedupFirstAux [] l

/-- Value paired with the first occurrence of `t` in the parallel lists
`ds` / `vs` (the `all_data[unq_idx]` part of `np.unique` with
`return_index=True`); default `0` when absent or the lists are ragged. -/
def firstOccValue : List ℚ → List ℚ → ℚ → ℚ
  | [], _, _ => 0
  | _ :: _, [], _ => 0
  | d :: ds, v :: vs, t => if d = t then v else firstOccValue ds vs t

/-- Sorted list of distinct dates: the first component of
`np.unique(all_dates, return_index=True)`. -/
def npUniqueDates (l : List ℚ) : List ℚ :=
  (dedupFirst l).insertionSort (· ≤ ·)

/-- One linear-interpolation step of `np.interp`: walk the (x, f) pairs
carrying the previous point. -/
def npInterpGo (x x0 f0 : ℚ) : List (ℚ × ℚ) → ℚ
  | [] => f0
  | (x1, f1) :: rest =>
    if x ≤ x1 then f0 + (f1 - f0) * (x - x0) / (x1 - x0)
    else npInterpGo x x1 f1 rest

/-- Model of `np.interp x xp fp` over zipped sample points `pts = xp.zip fp`
(assumed increasing in the first component): constant continuation at the
ends, linear interpolation inside. -/
def npInterp (x : ℚ) : List (ℚ × ℚ) → ℚ
  | [] => 0
  | (x0, f0) :: rest => if x ≤ x0 then f0 else npInterpGo x x0 f0 rest

/-- Python `int()` applied to the exact rational value: truncation toward
zero. -/
def pyInt (q : ℚ) : Int := Int.tdiv q.num q.den

/-! ## The container -/

/-- The `EdbMnemonic` container, restricted to the fields the verified
operations read or write: the identifier, the two data columns, the
`meta['TlmMnemonics'][0]['AllPoints'] != 0` flag, and the block index
array.  Requested start/end times, cached statistics and the `info`
dictionary are not modelled (no claim depends on them). -/
structure EdbMnemonic where
  mnemonic_identifier : String
  dates : List ℚ
  euvalues : List ℚ
  allPoints : Bool
  blocks : Option (List Int)
deriving DecidableEq, Repr

/-- Derived `data_start_time`: `np.min(data['dates'])` (source leaves it `None` on
an empty table; claims only use it on non-empty data). -/
def dataStartTime (m : EdbMnemonic) : ℚ := listMinQ m.dates

/-- Derived `data_end_time`: `np.max(data['dates'])`. -/
def dataEndTime (m : EdbMnemonic) : ℚ := listMaxQ m.dates

/-! ## change_only_add_points (source lines 478-493) -/

/-- One microsecond, the `delta_t = timedelta(microseconds=1)` of the
source, in seconds. -/
def oneMicrosecond : ℚ := 1 / 1000000

/-- Transcription of `EdbMnemonic.change_only_add_points` from the source:
`new_dates = [dates[0]]`, `new_vals = [euvalues[0]]`, then for
`i, row in enumerate(data[1:])` (so `i = 0 .. n-2`) append
`dates[i] - delta_t` and `euvalues[i - 1]`, where `euvalues[-1]` wraps to
the final element as in Python.  Returns the new (dates, euvalues) columns.
Empty input would raise `IndexError` at `dates[0]` in the source; callers
guard `len > 0`. -/
def change_only_add_points (dates vals : List ℚ) : List ℚ × List ℚ :=
  match dates, vals with
  | d0 :: _, v0 :: _ =>
    (d0 :: (List.range (dates.length - 1)).map
        (fun i => dates.getD i 0 - oneMicrosecond),
     v0 :: (List.range (dates.length - 1)).map
        (fun i => pyGet vals 0 ((i : Int) - 1)))
  | _, _ => ([], [])

/-! ## change_only_bounding_points (source lines 931-994) -/

/-- Transcription of
`change_only_bounding_points(date_list, value_list, starttime, endtime)`: `valid_idx = np.where((d <= end) & (d >= start))`,
`before_startime = np.where(d < start)`, `before_endtime = np.where(d < end)`;
the value at `starttime` is `value_list[before_startime[-1]]` or NaN (`none`)
when no date precedes `starttime`, likewise at `endtime`; the cropped columns
are bracketed by entries at exactly `starttime` and `endtime`. -/
def change_only_bounding_points (dates : List ℚ) (values : List (Option ℚ))
    (starttime endtime : ℚ) : List ℚ × List (Option ℚ) :=
  let valid := idxWhere (fun d => decide (d ≤ endtime) && decide (starttime ≤ d)) dates
  let beforeS := idxWhere (fun d => decide (d < starttime)) dates
  let beforeE := idxWhere (fun d => decide (d < endtime)) dates
  let value0 : Option ℚ :=
    match beforeS.getLast? with
    | none => none
    | some i => values.getD i none
  let valueEnd : Option ℚ :=
    match beforeE.getLast? with
    | none => none
    | some i => values.getD i none
  (starttime :: valid.map (fun i => dates.getD i 0) ++ [endtime],
   value0 :: valid.map (fun i => values.getD i none) ++ [valueEnd])

/-- The value in effect strictly before time `t`: the value of the last pair
whose date is `< t` (in list order), `none` (NaN) when there is none.  This
is the specification-side description of the bracketing values; the claim
theorem identifies it with the index computation of the source. -/
def lastPairBefore (t : ℚ) : List (ℚ × Option ℚ) → Option (Option ℚ)
  | [] => none
  | (d, v) :: rest =>
    match lastPairBefore t rest with
    | some w => some w
    | none => if d < t then some v else none

/-! ## change_only_stats (source lines 997-1038) -/

/-- The `delta_time = times[1:] - times[0:-1]` array: consecutive differences
(length one less than `times`). -/
def change_only_deltas (times : List ℚ) : List ℚ :=
  List.zipWith (fun a b => a - b) times.tail times

/-- The `np.min(delta_time)` normalizer. -/
def minDelta (times : List ℚ) : ℚ := listMinQ (change_only_deltas times)

/-- The `time_fractions = delta_time / np.min(delta_time) * 100.` array. -/
def change_only_fractions (times : List ℚ) : List ℚ :=
  (change_only_deltas times).map (fun d => d / minDelta times * 100)

/-- The multiset handed to sigma-clipping by `change_only_stats`:
`[[val] * int(time) for val, time in zip(values, time_fractions)]`,
flattened.  `zip` truncates to the shorter list (`time_fractions` has one
entry fewer than `values`), and `[v] * k` is empty for `k <= 0`. -/
def change_only_multiset (times values : List ℚ) : List ℚ :=
  ((values.zip (change_only_fractions times)).map
      (fun p => List.replicate (pyInt p.2).toNat p.1)).flatten

/-- Result type of `change_only_stats`: the source returns
`(None, None, None)` on no data, the *list* `values` as both mean and median
(with stdev `0.`) on a single sample, and the sigma-clipped triple
otherwise. -/
inductive COStats where
  | empty3 : COStats
  | single : List ℚ → COStats
  | clipped : ℚ × ℚ × ℚ → COStats
deriving DecidableEq, Repr

/-- Transcription of `change_only_stats(times, values, sigma)`.  The
sigma-clipping primitive
(`astropy.stats.sigma_clipped_stats`) is an external collaborator of the
core (spec §6) and is passed in as the function `sclip`. -/
def change_only_stats (sclip : List ℚ → ℚ × ℚ × ℚ) (times values : List ℚ) :
    COStats :=
  if times.length = 0 then .empty3
  else if times.length = 1 then .single values
  else .clipped (sclip (change_only_multiset times values))

/-! ## interpolate (source lines 549-605) -/

/-- Source helper `create_time_offset(dt_obj, epoch)`: seconds between `dt_obj` and
`epoch` (exact here since timestamps are rational seconds). -/
def create_time_offset (dt_obj epoch : ℚ) : ℚ := dt_obj - epoch

/-- Source helper `add_time_offset(offset, dt_obj)`: add `offset` seconds. -/
def add_time_offset (offset dt_obj : ℚ) : ℚ := dt_obj + offset

/-- Change-only branch of `interpolate`: for each requested time, the pair
`(time, euvalues[latest[-1]])` where `latest = np.where(dates <= time)[0]`,
skipping times with no earlier-or-equal sample. -/
def coInterpPairs (dates vals : List ℚ) (times : List ℚ) : List (ℚ × ℚ) :=
  times.filterMap (fun t =>
    match (idxWhere (fun d => decide (d ≤ t)) dates).getLast? with
    | some i => some (t, vals.getD i 0)
    | none => none)

/-- Block-boundary adjustment loop of `interpolate`: for each original block
start index (all but the last entry), look up its date (Python indexing; may
raise `IndexError`) and keep the first index of the new dates at or past it,
dropping unmatched blocks. -/
def adjustBlocksGo (dates newDates : List ℚ) : List Int → Except String (List Int)
  | [] => .ok []
  | bi :: rest =>
    match pyGetE dates bi with
    | .error e => .error e
    | .ok dval =>
      match adjustBlocksGo dates newDates rest with
      | .error e => .error e
      | .ok tailIdx =>
        match (idxWhere (fun nd => decide (dval ≤ nd)) newDates).head? with
        | some g => .ok ((g : Int) :: tailIdx)
        | none => .ok tailIdx

/-- The full block adjustment of `interpolate`: the `[None]` sentinel has no
meaningful boundaries (`blocks[0:-1]` is empty), a real array contributes
its entries except the last; the new sample count is always appended. -/
def adjustBlocks (m : EdbMnemonic) (newDates : List ℚ) : Except String (List Int) :=
  match m.blocks with
  | none => .ok [(newDates.length : Int)]
  | some bs =>
    match adjustBlocksGo m.dates newDates bs.dropLast with
    | .error e => .error e
    | .ok idxs => .ok (idxs ++ [(newDates.length : Int)])

/-- The `mnem_times` array of the all-points branch of `interpolate`: every date as a
seconds offset from the first date (the epoch `self.data["dates"][0]`). -/
def apOffsets (m : EdbMnemonic) : List ℚ :=
  m.dates.map (fun d => create_time_offset d (m.dates.headD 0))

/-- The `interp_times` array of the all-points branch of `interpolate`: requested
times as offsets, restricted by `good_times` to the closed offset range of
the source data (`interp_times >= mnem_times[0]` and
`interp_times <= mnem_times[-1]`): no extrapolation. -/
def apInterpTimes (m : EdbMnemonic) (times : List ℚ) : List ℚ :=
  (times.map (fun t => create_time_offset t (m.dates.headD 0))).filter
    (fun ot => decide ((apOffsets m).headD 0 ≤ ot) &&
      decide (ot ≤ (apOffsets m).getLastD 0))

/-- The `new_tab` construction of `EdbMnemonic.interpolate(times)`,
transcribed from the source.  The change-only branch only fills the new
table when at least one value was produced (`none` = a column-less
`Table()`).  The all-points branch requires at least two samples, otherwise
the source executes `np.array[()]`, which raises `TypeError` (subscripting
the function object). -/
def interpTab (m : EdbMnemonic) (times : List ℚ) :
    Except String (Option (List ℚ × List ℚ)) :=
  if m.allPoints = false then
    let pairs := coInterpPairs m.dates m.euvalues times
    .ok (if 0 < pairs.length then some (pairs.map Prod.fst, pairs.map Prod.snd) else none)
  else
    if 2 ≤ m.dates.length then
      .ok (some ((apInterpTimes m times).map
          (fun ot => add_time_offset ot (m.dates.headD 0)),
        (apInterpTimes m times).map
          (fun ot => npInterp ot ((apOffsets m).zip m.euvalues))))
    else .error "TypeError: np.array is not subscriptable"

/-- The tail of `EdbMnemonic.interpolate`: resolve the new table (a missing
table raises `KeyError` at `new_tab["dates"]`), adjust the blocks, and
replace the container's data and blocks wholesale. -/
def interpolate (m : EdbMnemonic) (times : List ℚ) : Except String EdbMnemonic :=
  match interpTab m times with
  | .error e => .error e
  | .ok none => .error "KeyError: dates"
  | .ok (some (newDates, newVals)) =>
    match adjustBlocks m newDates with
    | .error e => .error e
    | .ok newBlocks =>
      .ok { m with dates := newDates, euvalues := newVals, blocks := some newBlocks }

/-! ## __add__ (source lines 73-152) -/

/-- Transcription of `EdbMnemonic.__add__` from the source: identifier check,
empty-operand short circuits, early/late orientation by minimum date,
deduplication with `np.unique(..., return_index=True)`, block shifting by
`overlap_len = len(unique_dates) - len(all_dates)` (a nonpositive number),
and the four-way sentinel case split on the block arrays. -/
def edb_add (a b : EdbMnemonic) : Except String EdbMnemonic :=
  if a.mnemonic_identifier ≠ b.mnemonic_identifier then
    .error "ValueError: mismatched mnemonic"
  else if a.dates.length = 0 then .ok b
  else if b.dates.length = 0 then .ok a
  else
    let o := if listMinQ a.dates < listMinQ b.dates then (a, b) else (b, a)
    let early := o.1
    let late := o.2
    let allDates := early.dates ++ late.dates
    let allData := early.euvalues ++ late.euvalues
    let uniqueDates := npUniqueDates allDates
    let uniqueData := uniqueDates.map (firstOccValue allDates allData)
    let overlapLen : Int := (uniqueDates.length : Int) - (allDates.length : Int)
    let newBlocks : Option (List Int) :=
      match late.blocks with
      | some lbs =>
        let newLate := lbs.map (fun x => x - overlapLen)
        match early.blocks with
        | none => some newLate
        | some ebs => some (ebs ++ newLate)
      | none =>
        match early.blocks with
        | some ebs => some ebs
        | none => none
    .ok { mnemonic_identifier := a.mnemonic_identifier, dates := uniqueDates,
          euvalues := uniqueData, allPoints := a.allPoints, blocks := newBlocks }

/-- The concatenation of the two operands' dates in earlier-then-later order
(ties start the concatenation with the right operand, as in the source's
strict `<` test). -/
def addAllDates (a b : EdbMnemonic) : List ℚ :=
  if listMinQ a.dates < listMinQ b.dates then a.dates ++ b.dates
  else b.dates ++ a.dates

/-- The matching concatenation of the two operands' values. -/
def addAllVals (a b : EdbMnemonic) : List ℚ :=
  if listMinQ a.dates < listMinQ b.dates then a.euvalues ++ b.euvalues
  else b.euvalues ++ a.euvalues

/-- The `overlapCount = totalSamplesBeforeDedup - uniqueSampleCount` quantity
of the specification. -/
def overlapCount (a b : EdbMnemonic) : Nat :=
  (addAllDates a b).length - (npUniqueDates (addAllDates a b)).length

/-! ## __mul__ (source lines 206-270) -/

/-- The intersection-and-product step of `EdbMnemonic.__mul__`, applied to
the left operand and the already-interpolated right operand:
`np.intersect1d(..., return_indices=True)` (modelled by its documented
semantics: sorted distinct common values, first-occurrence indices in each
input) keeps the rows common to both; blocks are donated by whichever
operand kept its length, else `ValueError`; the common rows' values are
multiplied pointwise. -/
def mulCombine (a b2 : EdbMnemonic) : Except String EdbMnemonic :=
  let commonDates := (npUniqueDates a.dates).filter (fun t => b2.dates.contains t)
  if commonDates.length = a.dates.length then
    .ok { mnemonic_identifier := a.mnemonic_identifier, dates := commonDates,
          euvalues := List.zipWith (fun x y => x * y)
            (commonDates.map (firstOccValue a.dates a.euvalues))
            (commonDates.map (firstOccValue b2.dates b2.euvalues)),
          allPoints := a.allPoints, blocks := a.blocks }
  else if commonDates.length = b2.dates.length then
    .ok { mnemonic_identifier := a.mnemonic_identifier, dates := commonDates,
          euvalues := List.zipWith (fun x y => x * y)
            (commonDates.map (firstOccValue a.dates a.euvalues))
            (commonDates.map (firstOccValue b2.dates b2.euvalues)),
          allPoints := a.allPoints, blocks := b2.blocks }
  else .error "ValueError: both instances changed lengths"

/-- Transcription of `EdbMnemonic.__mul__` from the source.  Returns the product
instance together with the final state of the mutated right operand.

With fewer than two samples, the source runs `mnem.data["dates"] = []`:
astropy refuses to replace a column of a non-empty table by a zero-length
column (inconsistent column lengths; the in-place fallback is a failing
numpy broadcast), so this raises unless the table is already empty.

Otherwise the right operand is interpolated in place onto the left's dates;
`np.intersect1d(..., return_indices=True)` (modelled by its documented
semantics: sorted distinct common values, first-occurrence indices) keeps
the rows common to both; blocks are donated by whichever operand kept its
length, else `ValueError`.  The units/description update of `info` is not
modelled (its `KeyError` is swallowed by the source). -/
def edb_mul (a b : EdbMnemonic) : Except String (EdbMnemonic × EdbMnemonic) :=
  if b.dates.length < 2 then
    if b.euvalues.length ≠ 0 then
      .error "ValueError: inconsistent column lengths"
    else
      let b2 := { b with dates := ([] : List ℚ), euvalues := ([] : List ℚ) }
      .ok (b2, b2)
  else
    match interpolate b a.dates with
    | .error e => .error e
    | .ok b2 =>
      match mulCombine a b2 with
      | .error e => .error e
      | .ok res => .ok (res, b2)

/-! ## Helper lemmas -/

/-- Equality of `Except` results is decidable componentwise (used to evaluate
the embedded operations on concrete inputs). -/
instance {e a : Type} [DecidableEq e] [DecidableEq a] : DecidableEq (Except e a) := fun x y =>
  match x, y with
  | .ok u, .ok v => if h : u = v then isTrue (by rw [h]) else isFalse (by simp [h])
  | .error u, .error v => if h : u = v then isTrue (by rw [h]) else isFalse (by simp [h])
  | .ok _, .error _ => isFalse (by simp)
  | .error _, .ok _ => isFalse (by simp)

theorem mem_dedupFirstAux {x : ℚ} :
    ∀ (seen l : List ℚ), x ∈ dedupFirstAux seen l ↔ x ∈ l ∧ x ∉ seen := by
  intro seen l
  induction l generalizing seen with
  | nil => simp [dedupFirstAux]
  | cons y ys ih =>
    by_cases hy : y ∈ seen
    · rw [dedupFirstAux, if_pos hy, ih]
      simp only [List.mem_cons]
      constructor
      · rintro ⟨h1, h2⟩
        exact ⟨Or.inr h1, h2⟩
      · rintro ⟨h1 | h1, h2⟩
        · subst h1; exact absurd hy h2
        · exact ⟨h1, h2⟩
    · rw [dedupFirstAux, if_neg hy]
      by_cases hx : x = y
      · subst hx
        simp [hy]
      · simp only [List.mem_cons, hx, false_or, ih, List.mem_cons]

theorem mem_dedupFirst {x : ℚ} {l : List ℚ} : x ∈ dedupFirst l ↔ x ∈ l := by
  simp [dedupFirst, mem_dedupFirstAux]

theorem nodup_dedupFirstAux : ∀ (seen l : List ℚ), (dedupFirstAux seen l).Nodup := by
  intro seen l
  induction l generalizing seen with
  | nil => simp [dedupFirstAux]
  | cons y ys ih =>
    by_cases hy : y ∈ seen
    · simpa [dedupFirstAux, if_pos hy] using ih seen
    · simp only [dedupFirstAux, if_neg hy, List.nodup_cons]
      refine ⟨fun hmem => ?_, ih _⟩
      exact ((mem_dedupFirstAux _ _).1 hmem).2 (List.mem_cons_self _ _)

theorem nodup_dedupFirst (l : List ℚ) : (dedupFirst l).Nodup := nodup_dedupFirstAux [] l

theorem length_dedupFirstAux_le : ∀ (seen l : List ℚ), (dedupFirstAux seen l).length ≤ l.length := by
  intro seen l
  induction l generalizing seen with
  | nil => simp [dedupFirstAux]
  | cons y ys ih =>
    by_cases hy : y ∈ seen
    · simp only [dedupFirstAux, if_pos hy]
      exact le_trans (ih seen) (Nat.le_succ _)
    · simpa [dedupFirstAux, if_neg hy] using ih (y :: seen)

theorem length_dedupFirst_le (l : List ℚ) : (dedupFirst l).length ≤ l.length :=
  length_dedupFirstAux_le [] l

theorem npUniqueDates_perm (l : List ℚ) : List.Perm (npUniqueDates l) (dedupFirst l) :=
  List.perm_insertionSort _ _

theorem mem_npUniqueDates {x : ℚ} {l : List ℚ} : x ∈ npUniqueDates l ↔ x ∈ l := by
  rw [(npUniqueDates_perm l).mem_iff, mem_dedupFirst]

theorem nodup_npUniqueDates (l : List ℚ) : (npUniqueDates l).Nodup :=
  ((npUniqueDates_perm l).symm.nodup_iff).1 (nodup_dedupFirst l)

theorem length_npUniqueDates (l : List ℚ) :
    (npUniqueDates l).length = (dedupFirst l).length :=
  (npUniqueDates_perm l).length_eq

theorem length_npUniqueDates_le (l : List ℚ) : (npUniqueDates l).length ≤ l.length :=
  (length_npUniqueDates l).le.trans (length_dedupFirst_le l)

theorem sorted_le_npUniqueDates (l : List ℚ) :
    (npUniqueDates l).Sorted (· ≤ ·) := List.sorted_insertionSort _ _

theorem sorted_lt_npUniqueDates (l : List ℚ) :
    (npUniqueDates l).Sorted (· < ·) := by
  have h1 := sorted_le_npUniqueDates l
  have h2 : (npUniqueDates l).Pairwise (· ≠ ·) := nodup_npUniqueDates l
  exact (h1.and h2).imp fun h => lt_of_le_of_ne h.1 h.2

theorem foldl_min_le_init : ∀ (ys : List ℚ) (a : ℚ), ys.foldl min a ≤ a := by
  intro ys
  induction ys with
  | nil => simp
  | cons b bs ih =>
    intro a
    exact le_trans (ih (min a b)) (min_le_left _ _)

theorem foldl_min_le_mem : ∀ (ys : List ℚ) (a z : ℚ), z ∈ ys → ys.foldl min a ≤ z := by
  intro ys
  induction ys with
  | nil => intro a z hz; simp at hz
  | cons b bs ih =>
    intro a z hz
    rcases List.mem_cons.1 hz with rfl | hz
    · exact le_trans (foldl_min_le_init bs (min a z)) (min_le_right _ _)
    · exact ih (min a b) z hz

theorem foldl_min_mem : ∀ (ys : List ℚ) (a : ℚ), ys.foldl min a = a ∨ ys.foldl min a ∈ ys := by
  intro ys
  induction ys with
  | nil => intro a; exact Or.inl rfl
  | cons b bs ih =>
    intro a
    rcases ih (min a b) with h1 | h1
    · rcases le_total a b with hab | hab
      · left
        rw [List.foldl_cons, h1, min_eq_left hab]
      · right
        rw [List.foldl_cons, h1, min_eq_right hab]
        exact List.mem_cons_self _ _
    · right
      exact List.mem_cons_of_mem _ (by rw [List.foldl_cons]; exact h1)

theorem listMinQ_le {l : List ℚ} (y : ℚ) (hy : y ∈ l) : listMinQ l ≤ y := by
  match l with
  | x :: xs =>
    rcases List.mem_cons.1 hy with rfl | hy
    · exact foldl_min_le_init xs y
    · exact foldl_min_le_mem xs x y hy

theorem listMinQ_mem {l : List ℚ} (h : l ≠ []) : listMinQ l ∈ l := by
  match l with
  | x :: xs =>
    rcases foldl_min_mem xs x with h1 | h1
    · rw [listMinQ, h1]
      exact List.mem_cons_self _ _
    · exact List.mem_cons_of_mem _ h1

theorem listMinQ_sorted_head {l : List ℚ} (hs : l.Sorted (· ≤ ·)) :
    listMinQ l = l.headD 0 := by
  match l with
  | [] => rfl
  | x :: xs =>
    have hall : ∀ y ∈ x :: xs, x ≤ y := by
      intro y hy
      rcases List.mem_cons.1 hy with rfl | hy
      · exact le_refl _
      · exact (List.sorted_cons.1 hs).1 y hy
    have h1 : listMinQ (x :: xs) ≤ x := listMinQ_le x (List.mem_cons_self _ _)
    have h2 : x ≤ listMinQ (x :: xs) := hall _ (listMinQ_mem (by simp))
    simpa using le_antisymm h1 h2

theorem foldl_max_init_le : ∀ (ys : List ℚ) (a : ℚ), a ≤ ys.foldl max a := by
  intro ys
  induction ys with
  | nil => simp
  | cons b bs ih =>
    intro a
    exact le_trans (le_max_left _ _) (ih (max a b))

theorem foldl_max_mem_le : ∀ (ys : List ℚ) (a z : ℚ), z ∈ ys → z ≤ ys.foldl max a := by
  intro ys
  induction ys with
  | nil => intro a z hz; simp at hz
  | cons b bs ih =>
    intro a z hz
    rcases List.mem_cons.1 hz with rfl | hz
    · exact le_trans (le_max_right _ _) (foldl_max_init_le bs (max a z))
    · exact ih (max a b) z hz

theorem foldl_max_mem : ∀ (ys : List ℚ) (a : ℚ), ys.foldl max a = a ∨ ys.foldl max a ∈ ys := by
  intro ys
  induction ys with
  | nil => intro a; exact Or.inl rfl
  | cons b bs ih =>
    intro a
    rcases ih (max a b) with h1 | h1
    · rcases le_total a b with hab | hab
      · right
        rw [List.foldl_cons, h1, max_eq_right hab]
        exact List.mem_cons_self _ _
      · left
        rw [List.foldl_cons, h1, max_eq_left hab]
    · right
      exact List.mem_cons_of_mem _ (by rw [List.foldl_cons]; exact h1)

theorem listMaxQ_le {l : List ℚ} (y : ℚ) (hy : y ∈ l) : y ≤ listMaxQ l := by
  match l with
  | x :: xs =>
    rcases List.mem_cons.1 hy with rfl | hy
    · exact foldl_max_init_le xs y
    · exact foldl_max_mem_le xs x y hy

theorem listMaxQ_mem {l : List ℚ} (h : l ≠ []) : listMaxQ l ∈ l := by
  match l with
  | x :: xs =>
    rcases foldl_max_mem xs x with h1 | h1
    · rw [listMaxQ, h1]
      exact List.mem_cons_self _ _
    · exact List.mem_cons_of_mem _ h1

theorem mem_le_sorted_getLastD {l : List ℚ} (hs : l.Sorted (· ≤ ·)) {y : ℚ}
    (hy : y ∈ l) : y ≤ l.getLastD 0 := by
  induction l with
  | nil => simp at hy
  | cons x xs ih =>
    have hx := (List.sorted_cons.1 hs).1
    have hs' := (List.sorted_cons.1 hs).2
    cases xs with
    | nil =>
      simp at hy
      simp [hy]
    | cons z zs =>
      have hlast : (x :: z :: zs).getLastD 0 = (z :: zs).getLastD 0 := by
        rw [List.getLastD_eq_getLast?, List.getLastD_eq_getLast?, List.getLast?_cons_cons]
      rw [hlast]
      rcases List.mem_cons.1 hy with rfl | hy
      · have hmem : (z :: zs).getLastD 0 ∈ z :: zs := by
          rw [List.getLastD_eq_getLast?, List.getLast?_eq_getLast _ (by simp)]
          exact List.getLast_mem _
        exact hx _ hmem
      · exact ih hs' hy

theorem listMaxQ_sorted_getLast {l : List ℚ} (hs : l.Sorted (· ≤ ·)) :
    listMaxQ l = l.getLastD 0 := by
  match l with
  | [] => rfl
  | x :: xs =>
    have hne : x :: xs ≠ [] := by simp
    have hmem : (x :: xs).getLastD 0 ∈ x :: xs := by
      rw [List.getLastD_eq_getLast?, List.getLast?_eq_getLast _ hne]
      exact List.getLast_mem _
    have h1 : (x :: xs).getLastD 0 ≤ listMaxQ (x :: xs) := listMaxQ_le _ hmem
    have h2 : listMaxQ (x :: xs) ≤ (x :: xs).getLastD 0 :=
      mem_le_sorted_getLastD hs (listMaxQ_mem hne)
    exact le_antisymm h2 h1

theorem getLast?_cons_ne_nil {α : Type} (a : α) {l : List α} (h : l ≠ []) :
    (a :: l).getLast? = l.getLast? := by
  cases l with
  | nil => exact absurd rfl h
  | cons b bs => exact List.getLast?_cons_cons ..

theorem idxWhere_map_getD {α : Type} (p : α → Bool) (l : List α) (d : α) :
    (idxWhere p l).map (fun i => l.getD i d) = l.filter p := by
  induction l with
  | nil => simp [idxWhere]
  | cons x xs ih =>
    have hmap : (List.map (fun i => i + 1) (idxWhere p xs)).map (fun i => (x :: xs).getD i d)
        = (idxWhere p xs).map (fun i => xs.getD i d) := by
      rw [List.map_map]
      apply List.map_congr_left
      intro i _
      simp [Function.comp, List.getD_cons_succ]
    by_cases hx : p x
    · rw [show idxWhere p (x :: xs) = 0 :: (idxWhere p xs).map (· + 1) by
        simp [idxWhere, hx]]
      rw [List.map_cons, hmap, ih, List.getD_cons_zero, List.filter_cons_of_pos hx]
    · rw [show idxWhere p (x :: xs) = (idxWhere p xs).map (· + 1) by
        simp [idxWhere, hx]]
      rw [hmap, ih, List.filter_cons_of_neg (by simpa using hx)]

theorem idxWhere_map_getD_parallel {α : Type} (p : ℚ → Bool) :
    ∀ (ds : List ℚ) (vs : List α) (d : α), vs.length = ds.length →
      (idxWhere p ds).map (fun i => vs.getD i d) =
        ((ds.zip vs).filter (fun q => p q.1)).map Prod.snd := by
  intro ds
  induction ds with
  | nil => intro vs d h; simp [idxWhere]
  | cons x xs ih =>
    intro vs d h
    match vs with
    | v :: vs' =>
      have h' : vs'.length = xs.length := by simpa using h
      have hmap : (List.map (fun i => i + 1) (idxWhere p xs)).map (fun i => (v :: vs').getD i d)
          = (idxWhere p xs).map (fun i => vs'.getD i d) := by
        rw [List.map_map]
        apply List.map_congr_left
        intro i _
        simp [Function.comp, List.getD_cons_succ]
      by_cases hx : p x
      · rw [show idxWhere p (x :: xs) = 0 :: (idxWhere p xs).map (· + 1) by
          simp [idxWhere, hx]]
        rw [List.map_cons, hmap, ih vs' d h', List.getD_cons_zero, List.zip_cons_cons]
        simp [List.filter_cons, hx]
      · rw [show idxWhere p (x :: xs) = (idxWhere p xs).map (· + 1) by
          simp [idxWhere, hx]]
        rw [hmap, ih vs' d h', List.zip_cons_cons]
        simp [List.filter_cons, hx]

theorem lastPairBefore_filter (t : ℚ) :
    ∀ (pairs : List (ℚ × Option ℚ)),
      lastPairBefore t pairs =
        ((pairs.filter (fun q => decide (q.1 < t))).getLast?).map Prod.snd := by
  intro pairs
  induction pairs with
  | nil => simp [lastPairBefore]
  | cons q rest ih =>
    match q with
    | (d, v) =>
      rw [lastPairBefore]
      cases hrest : lastPairBefore t rest with
      | some w =>
        rw [hrest] at ih
        have hne : rest.filter (fun q => decide (q.1 < t)) ≠ [] := by
          intro hnil
          rw [hnil] at ih
          simp at ih
        by_cases hd : d < t
        · rw [List.filter_cons_of_pos (by simpa using hd), getLast?_cons_ne_nil _ hne, ← ih]
        · rw [List.filter_cons_of_neg (by simpa using hd), ← ih]
      | none =>
        rw [hrest] at ih
        have hnil : rest.filter (fun q => decide (q.1 < t)) = [] := by
          cases hfil : rest.filter (fun q => decide (q.1 < t)) with
          | nil => rfl
          | cons r rs =>
            rw [hfil] at ih
            exfalso
            have : (r :: rs).getLast? = some ((r :: rs).getLast (by simp)) :=
              List.getLast?_eq_getLast _ (by simp)
            rw [this] at ih
            simp at ih
        by_cases hd : d < t
        · rw [List.filter_cons_of_pos (by simpa using hd), hnil]
          simp [hd]
        · rw [List.filter_cons_of_neg (by simpa using hd), hnil]
          simp [hd]

theorem pyInt_eq_floor {q : ℚ} (h : 0 ≤ q) : pyInt q = Int.floor q := by
  rw [pyInt, Rat.floor_def]
  exact Int.tdiv_eq_ediv (Rat.num_nonneg.2 h) (by positivity)

theorem firstOccValue_spec :
    ∀ (ds vs : List ℚ) (t : ℚ), vs.length = ds.length → t ∈ ds →
      ∃ j, j < ds.length ∧ ds.getD j 0 = t ∧ vs.getD j 0 = firstOccValue ds vs t ∧
        ∀ k, k < j → ds.getD k 0 ≠ t := by
  intro ds
  induction ds with
  | nil => intro vs t _ ht; simp at ht
  | cons d ds' ih =>
    intro vs t hl ht
    match vs with
    | v :: vs' =>
      have hl' : vs'.length = ds'.length := by simpa using hl
      by_cases hd : d = t
      · refine ⟨0, by simp, by simpa using hd, ?_, by omega⟩
        rw [firstOccValue, if_pos hd]
        simp
      · have ht' : t ∈ ds' := by
          rcases List.mem_cons.1 ht with rfl | ht'
          · exact absurd rfl hd
          · exact ht'
        obtain ⟨j, hj, hdj, hvj, hfirst⟩ := ih vs' t hl' ht'
        refine ⟨j + 1, by simpa using Nat.succ_lt_succ hj, by simpa using hdj, ?_, ?_⟩
        · rw [firstOccValue, if_neg hd]
          simpa using hvj
        · intro k hk
          match k with
          | 0 => simpa using hd
          | k' + 1 =>
            have : k' < j := by omega
            simpa using hfirst k' this

theorem getD_tail {α : Type} (l : List α) (d : α) (i : Nat) :
    l.tail.getD i d = l.getD (i + 1) d := by
  cases l <;> simp [List.getD]

theorem zip_flatten_indexed {α : Type} (g : ℚ × ℚ → List α) :
    ∀ (vs fs : List ℚ),
      ((vs.zip fs).map g).flatten =
        (List.range (min vs.length fs.length)).flatMap
          (fun i => g (vs.getD i 0, fs.getD i 0)) := by
  intro vs
  induction vs with
  | nil => intro fs; simp
  | cons v vs' ih =>
    intro fs
    match fs with
    | [] => simp
    | f :: fs' =>
      have hmin : min (v :: vs').length (f :: fs').length = min vs'.length fs'.length + 1 := by
        simp [Nat.succ_min_succ]
      rw [List.zip_cons_cons, List.map_cons, List.flatten_cons, hmin,
        List.range_succ_eq_map, List.flatMap_cons, ih fs']
      simp only [List.getD_cons_zero, List.flatMap_map, List.getD_cons_succ]

theorem change_only_deltas_getD (times : List ℚ) (i : Nat)
    (h : i + 1 < times.length) :
    (change_only_deltas times).getD i 0 = times.getD (i + 1) 0 - times.getD i 0 := by
  have hlen : (change_only_deltas times).length = times.length - 1 := by
    simp [change_only_deltas]
  have hi : i < (change_only_deltas times).length := by omega
  rw [List.getD_eq_getElem _ _ hi]
  simp only [change_only_deltas] at hi ⊢
  rw [List.getElem_zipWith]
  have h1 : i < times.tail.length := by simp at hi ⊢; omega
  have h2 : i < times.length := by omega
  rw [← List.getD_eq_getElem times.tail 0 h1, ← List.getD_eq_getElem times 0 h2, getD_tail]

theorem change_only_deltas_length (times : List ℚ) :
    (change_only_deltas times).length = times.length - 1 := by
  simp [change_only_deltas]

/-! ## Claim theorems -/

/-- Input exhibiting the `change_only_add_points` defect: a two-sample
change-only series at 0 s and 10 s. -/
def c1Dates : List ℚ := [0, 10]

/-- Values of the C1 failing input. -/
def c1Vals : List ℚ := [1, 2]

/-- Claim C1 (code_bug evidence): the claim (and the source's own
docstring) says a change-only series of `n` samples expands to `2n-1`
samples, keeping every original sample and inserting before each original
sample (except the first) a sample one microsecond earlier carrying the
previous value.  Evaluating the transcribed source on dates `[0, 10]` with
values `[1, 2]` instead yields only the 2 samples `[0, -1 microsecond]`
with values `[1, 2]`: the loop reads `dates[i]` instead of `dates[i+1]`
(so the inserted point lands one microsecond before the *previous* sample),
reads `euvalues[i-1]` (which wraps to the last value at `i = 0`), and never
re-appends the original samples.  In particular the second original sample
`(10, 2)` is absent and the length is not `2n-1 = 3`. -/
theorem C1_change_only_add_points_eval :
    change_only_add_points c1Dates c1Vals = ([0, -(1/1000000)], [1, 2]) ∧
    (change_only_add_points c1Dates c1Vals).1.length ≠ 2 * c1Dates.length - 1 ∧
    (10 : ℚ) ∉ (change_only_add_points c1Dates c1Vals).1 := by
  refine ⟨?_, ?_, ?_⟩
  · simp [change_only_add_points, c1Dates, c1Vals, oneMicrosecond, pyGet, List.range_succ]
  · simp [change_only_add_points, c1Dates, c1Vals]
  · simp [change_only_add_points, c1Dates, c1Vals, oneMicrosecond, pyGet, List.range_succ]
    norm_num

/-- Change-only series used to refute the universal no-extrapolation claim. -/
def c2Mnem : EdbMnemonic := ⟨"SA_ZFGOUTFOV", [0, 10], [1, 2], false, none⟩

/-- Claim C2 (counterexample): interpolation of a change-only series with
data range `[0, 10]` at the single target time `20` *does* emit a sample at
timestamp `20 > dataEnd = 10` (carrying the held last value `2`), so the
claim that no emitted timestamp lies outside `[dataStart, dataEnd]` for
every encoding is false. -/
theorem C2_no_extrapolation_cex :
    interpolate c2Mnem [20] =
      .ok { c2Mnem with dates := [20], euvalues := [2], blocks := some [1] } ∧
    dataEndTime c2Mnem < 20 := by
  constructor
  · decide
  · decide

/-- Left operand for the `Multiply` degradation claim. -/
def c5Left : EdbMnemonic := ⟨"IMIR_HK_ICE_SEC_VOLT4", [0, 10], [5, 6], true, none⟩

/-- Right operand with exactly one sample (the failing input of C5). -/
def c5OneSample : EdbMnemonic := ⟨"IMIR_HK_ICE_SEC_VOLT4", [0], [1], true, none⟩

/-- Right operand with zero samples. -/
def c5Empty : EdbMnemonic := ⟨"IMIR_HK_ICE_SEC_VOLT4", [], [], true, none⟩

/-- Claim C5 (code_bug evidence): with a one-sample right operand the
source's `mnem.data["dates"] = []` tries to replace a column of a 1-row
astropy table by a zero-length column, which astropy rejects (inconsistent
column lengths; the in-place fallback is a failing numpy broadcast), so
`Multiply` raises instead of degrading.  Only a right operand that is
already empty is returned as the promised explicitly-empty series. -/
theorem C5_multiply_short_operand :
    edb_mul c5Left c5OneSample = .error "ValueError: inconsistent column lengths" ∧
    edb_mul c5Left c5Empty = .ok (c5Empty, c5Empty) := by
  constructor
  · decide
  · decide

/-- Empty all-points series for C8. -/
def c8EmptyAllPoints : EdbMnemonic := ⟨"SE_ZIMIRICEA", [], [], true, none⟩

/-- Empty change-only series for C8. -/
def c8EmptyChangeOnly : EdbMnemonic := ⟨"SE_ZIMIRICEA", [], [], false, none⟩

/-- Claim C8 (code_bug evidence): interpolation of an empty-sample series
raises rather than returning an empty result.  For all-points metadata the
source reaches `np.array[()]` (subscripting the `np.array` function), a
`TypeError`; for change-only metadata no values are produced, the new
`Table()` never receives its columns, and the block-adjustment step raises
`KeyError` on `new_tab["dates"]`.  (The windowed-statistics family fails on
empty input as well: `daily_stats`/`timed_stats` call `np.min`/`np.max` on
a zero-size array and `block_stats`/`full_stats` index element 0.) -/
theorem C8_empty_interpolate_raises :
    interpolate c8EmptyAllPoints [0] = .error "TypeError: np.array is not subscriptable" ∧
    interpolate c8EmptyAllPoints [] = .error "TypeError: np.array is not subscriptable" ∧
    interpolate c8EmptyChangeOnly [0] = .error "KeyError: dates" ∧
    interpolate c8EmptyChangeOnly [] = .error "KeyError: dates" := by
  refine ⟨?_, ?_, ?_, ?_⟩ <;> decide

/-- Empty-sample series that nevertheless carries a real (non-sentinel)
blocks array; the data-model invariant allows this (its boundary `0` does
not exceed the sample count `0`). -/
def c9X : EdbMnemonic := ⟨"SA_ZADUCMDX", [], [], true, some [0]⟩

/-- The empty series with default sentinel blocks. -/
def c9Empty : EdbMnemonic := ⟨"SA_ZADUCMDX", [], [], true, none⟩

/-- Claim C9 (counterexample): `Add(x, EmptySeries)` does not always return
`x`'s data unchanged *including blocks*: when `x` itself has no samples,
the source returns the other operand, so the result carries the empty
operand's sentinel blocks rather than `x`'s blocks. -/
theorem C9_empty_add_cex :
    edb_add c9X c9Empty = .ok c9Empty ∧ c9Empty.blocks ≠ c9X.blocks := by
  constructor
  · decide
  · decide

theorem zip_filter_map_fst {α : Type} (p : ℚ → Bool) :
    ∀ (ds : List ℚ) (vs : List α), vs.length = ds.length →
      ((ds.zip vs).filter (fun q => p q.1)).map Prod.fst = ds.filter p := by
  intro ds
  induction ds with
  | nil => intro vs h; simp
  | cons x xs ih =>
    intro vs h
    match vs with
    | v :: vs' =>
      have h' : vs'.length = xs.length := by simpa using h
      by_cases hx : p x <;> simp [List.filter_cons, hx, ih vs' h']

theorem getD_map (l : List ℚ) (f : ℚ → ℚ) (i : Nat) (h : i < l.length) (d d' : ℚ) :
    (l.map f).getD i d = f (l.getD i d') := by
  rw [List.getD_eq_getElem _ _ (by simpa using h), List.getD_eq_getElem _ _ h,
    List.getElem_map]

/-- Claim C7: for every change-only sample list (with parallel value column)
and requested window `[start, end]`, bounding-point reconstruction returns
the samples clipped to the closed window, with a sample prepended at exactly
`start` carrying the value of the last input sample strictly before `start`
(NaN, i.e. `none`, if none exists) and a sample appended at exactly `end`
carrying the value of the last input sample strictly before `end` (NaN if
none). -/
theorem C7_change_only_bounding_points (dates : List ℚ) (values : List (Option ℚ))
    (s e : ℚ) (hl : values.length = dates.length) :
    change_only_bounding_points dates values s e =
      (s :: ((dates.zip values).filter
          (fun q => decide (q.1 ≤ e) && decide (s ≤ q.1))).map Prod.fst ++ [e],
       (lastPairBefore s (dates.zip values)).getD none ::
         ((dates.zip values).filter
            (fun q => decide (q.1 ≤ e) && decide (s ≤ q.1))).map Prod.snd ++
         [(lastPairBefore e (dates.zip values)).getD none]) := by
  have hvalid_d :
      (idxWhere (fun d => decide (d ≤ e) && decide (s ≤ d)) dates).map
          (fun i => dates.getD i 0)
        = ((dates.zip values).filter
            (fun q => decide (q.1 ≤ e) && decide (s ≤ q.1))).map Prod.fst := by
    rw [idxWhere_map_getD]
    exact (zip_filter_map_fst _ dates values hl).symm
  have hvalid_v :
      (idxWhere (fun d => decide (d ≤ e) && decide (s ≤ d)) dates).map
          (fun i => values.getD i none)
        = ((dates.zip values).filter
            (fun q => decide (q.1 ≤ e) && decide (s ≤ q.1))).map Prod.snd := by
    simpa using idxWhere_map_getD_parallel
      (fun d => decide (d ≤ e) && decide (s ≤ d)) dates values none hl
  have hbefore : ∀ t : ℚ,
      (match (idxWhere (fun d => decide (d < t)) dates).getLast? with
        | none => (none : Option ℚ)
        | some i => values.getD i none)
        = (lastPairBefore t (dates.zip values)).getD none := by
    intro t
    rw [lastPairBefore_filter]
    have h2 : (idxWhere (fun d => decide (d < t)) dates).map (fun i => values.getD i none)
        = ((dates.zip values).filter (fun q => decide (q.1 < t))).map Prod.snd := by
      simpa using idxWhere_map_getD_parallel (fun d => decide (d < t)) dates values none hl
    cases hcase : (idxWhere (fun d => decide (d < t)) dates).getLast? with
    | none =>
      have hnil : idxWhere (fun d => decide (d < t)) dates = [] :=
        List.getLast?_eq_none_iff.1 hcase
      have hmap : ((dates.zip values).filter (fun q => decide (q.1 < t))).map Prod.snd = [] := by
        rw [← h2, hnil]
        rfl
      have hfil : (dates.zip values).filter (fun q => decide (q.1 < t)) = [] := by
        cases hf : (dates.zip values).filter (fun q => decide (q.1 < t)) with
        | nil => rfl
        | cons y ys =>
          rw [hf] at hmap
          simp at hmap
      rw [hfil]
      rfl
    | some i =>
      have h1 : ((idxWhere (fun d => decide (d < t)) dates).map
          (fun i => values.getD i none)).getLast? = some (values.getD i none) := by
        rw [List.getLast?_map, hcase]
        rfl
      rw [h2] at h1
      rw [List.getLast?_map] at h1
      rw [h1]
      rfl
  simp only [change_only_bounding_points]
  rw [Prod.mk.injEq]
  constructor
  · rw [hvalid_d]
  · rw [hvalid_v, hbefore s, hbefore e]

/-- Claim C7 (witness): the specification's own example: change-only samples
`[(5, 1), (15, 2)]` requested over `[0, 20]` reconstruct to a series
beginning `(0, NaN)` and ending `(20, 2)`, namely
`[(0, none), (5, some 1), (15, some 2), (20, some 2)]`. -/
theorem C7_change_only_bounding_points_witness :
    change_only_bounding_points [5, 15] [some 1, some 2] 0 20 =
      ((0 : ℚ) :: ((([5, 15] : List ℚ).zip [some 1, some 2]).filter
          (fun q => decide (q.1 ≤ 20) && decide (0 ≤ q.1))).map Prod.fst ++ [20],
       (lastPairBefore 0 (([5, 15] : List ℚ).zip [some 1, some 2])).getD none ::
         ((([5, 15] : List ℚ).zip [some 1, some 2]).filter
            (fun q => decide (q.1 ≤ 20) && decide (0 ≤ q.1))).map Prod.snd ++
         [(lastPairBefore 20 (([5, 15] : List ℚ).zip [some 1, some 2])).getD none]) ∧
    change_only_bounding_points [5, 15] [some 1, some 2] 0 20 =
      ([0, 5, 15, 20], [none, some 1, some 2, some 2]) :=
  ⟨C7_change_only_bounding_points [5, 15] [some 1, some 2] 0 20 (by decide), by decide⟩

theorem edb_add_ok_data (a b : EdbMnemonic)
    (hid : a.mnemonic_identifier = b.mnemonic_identifier)
    (ha : a.dates ≠ []) (hb : b.dates ≠ []) :
    ∃ r, edb_add a b = .ok r ∧
      r.dates = npUniqueDates (addAllDates a b) ∧
      r.euvalues = (npUniqueDates (addAllDates a b)).map
        (firstOccValue (addAllDates a b) (addAllVals a b)) := by
  unfold edb_add
  rw [if_neg (not_not_intro hid),
    if_neg (fun h => ha (List.length_eq_zero.1 h)),
    if_neg (fun h => hb (List.length_eq_zero.1 h))]
  by_cases hord : listMinQ a.dates < listMinQ b.dates
  · rw [if_pos hord]
    refine ⟨_, rfl, ?_, ?_⟩
    · simp [addAllDates, hord]
    · simp [addAllDates, addAllVals, hord]
  · rw [if_neg hord]
    refine ⟨_, rfl, ?_, ?_⟩
    · simp [addAllDates, hord]
    · simp [addAllDates, addAllVals, hord]

theorem npUnique_values_spec (allD allV : List ℚ) (hl : allV.length = allD.length)
    (i : Nat) (hi : i < (npUniqueDates allD).length) :
    ∃ j, j < allD.length ∧ allD.getD j 0 = (npUniqueDates allD).getD i 0 ∧
      allV.getD j 0 = ((npUniqueDates allD).map (firstOccValue allD allV)).getD i 0 ∧
      ∀ k, k < j → allD.getD k 0 ≠ (npUniqueDates allD).getD i 0 := by
  have htmem : (npUniqueDates allD).getD i 0 ∈ allD := by
    have hmem : (npUniqueDates allD).getD i 0 ∈ npUniqueDates allD := by
      rw [List.getD_eq_getElem _ _ hi]
      exact List.getElem_mem _
    exact mem_npUniqueDates.1 hmem
  obtain ⟨j, hj, hdj, hvj, hfirst⟩ :=
    firstOccValue_spec allD allV ((npUniqueDates allD).getD i 0) hl htmem
  refine ⟨j, hj, hdj, ?_, hfirst⟩
  rw [getD_map _ _ i hi 0 0, hvj]

/-- Claim C3: for series `a`, `b` with the same identifier and both
non-empty, `Add(a, b)` succeeds and yields a sample sequence with strictly
increasing, duplicate-free timestamps whose length equals
`len(a) + len(b) - overlapCount` (where
`overlapCount = totalSamplesBeforeDedup - uniqueSampleCount`), each
surviving timestamp paired with the value of its first occurrence in the
earlier-then-later concatenation order. -/
theorem C3_add_dedup (a b : EdbMnemonic)
    (hid : a.mnemonic_identifier = b.mnemonic_identifier)
    (ha : a.dates ≠ []) (hb : b.dates ≠ [])
    (hla : a.euvalues.length = a.dates.length)
    (hlb : b.euvalues.length = b.dates.length) :
    ∃ r, edb_add a b = .ok r ∧
      r.dates.Sorted (· < ·) ∧ r.dates.Nodup ∧
      r.dates.length = a.dates.length + b.dates.length - overlapCount a b ∧
      r.euvalues.length = r.dates.length ∧
      (∀ i, i < r.dates.length →
        ∃ j, j < (addAllDates a b).length ∧
          (addAllDates a b).getD j 0 = r.dates.getD i 0 ∧
          (addAllVals a b).getD j 0 = r.euvalues.getD i 0 ∧
          ∀ k, k < j → (addAllDates a b).getD k 0 ≠ r.dates.getD i 0) := by
  obtain ⟨r, hok, hD, hV⟩ := edb_add_ok_data a b hid ha hb
  have hlen : (addAllVals a b).length = (addAllDates a b).length := by
    by_cases hord : listMinQ a.dates < listMinQ b.dates <;>
      simp [addAllDates, addAllVals, hord, hla, hlb]
  have hlenD : (addAllDates a b).length = a.dates.length + b.dates.length := by
    by_cases hord : listMinQ a.dates < listMinQ b.dates <;>
      simp [addAllDates, hord, Nat.add_comm]
  refine ⟨r, hok, ?_, ?_, ?_, ?_, ?_⟩
  · rw [hD]
    exact sorted_lt_npUniqueDates _
  · rw [hD]
    exact nodup_npUniqueDates _
  · rw [hD, overlapCount]
    have h1 := length_npUniqueDates_le (addAllDates a b)
    omega
  · rw [hD, hV]
    simp
  · intro i hi
    rw [hD] at hi
    obtain ⟨j, h1, h2, h3, h4⟩ :=
      npUnique_values_spec (addAllDates a b) (addAllVals a b) hlen i hi
    refine ⟨j, h1, ?_, ?_, ?_⟩
    · rw [hD]
      exact h2
    · rw [hV]
      exact h3
    · rw [hD]
      exact h4

/-- Left operand for the C3 witness (starts earlier, ends at 20 s). -/
def c3A : EdbMnemonic := ⟨"SA_ZATTEST1", [0, 10, 20], [1, 2, 3], true, none⟩

/-- Right operand for the C3 witness (starts at the overlap point 20 s). -/
def c3B : EdbMnemonic := ⟨"SA_ZATTEST1", [20, 30], [3, 4], true, none⟩

/-- Claim C3 (witness): the dedup theorem applied to two concrete
overlapping series (one duplicated timestamp at 20 s). -/
theorem C3_add_dedup_witness :
    ∃ r, edb_add c3A c3B = .ok r ∧
      r.dates.Sorted (· < ·) ∧ r.dates.Nodup ∧
      r.dates.length = c3A.dates.length + c3B.dates.length - overlapCount c3A c3B ∧
      r.euvalues.length = r.dates.length ∧
      (∀ i, i < r.dates.length →
        ∃ j, j < (addAllDates c3A c3B).length ∧
          (addAllDates c3A c3B).getD j 0 = r.dates.getD i 0 ∧
          (addAllVals c3A c3B).getD j 0 = r.euvalues.getD i 0 ∧
          ∀ k, k < j → (addAllDates c3A c3B).getD k 0 ≠ r.dates.getD i 0) :=
  C3_add_dedup c3A c3B rfl (by decide) (by decide) (by decide) (by decide)

/-- Earlier operand for C4: three samples, real blocks `[0]`. -/
def c4A : EdbMnemonic := ⟨"IMIR_HK_FW_POS_RATIO_FND", [0, 10, 20], [1, 2, 3], true, some [0]⟩

/-- Later operand for C4: two samples overlapping at 20 s, real blocks `[1]`. -/
def c4B : EdbMnemonic := ⟨"IMIR_HK_FW_POS_RATIO_FND", [20, 30], [3, 4], true, some [1]⟩

/-- Claim C4 (counterexample): one timestamp (20 s) is duplicated, so
`overlapCount = 1`.  The claim predicts the later operand's block index `1`
is shifted *down* by `overlapCount` to `0` and afterwards addresses the same
sample it addressed in the later operand (date 30).  The source instead
computes `overlap_len = len(unique) - len(all) = -1` and subtracts it,
shifting the index *up* to `2`; and the shifted index `2` addresses date
20, not the date 30 that index `1` addressed in the later operand.  Both
halves of the claim fail. -/
theorem C4_block_shift_cex :
    (edb_add c4A c4B).map (fun r => r.blocks) = .ok (some [0, 2]) ∧
    overlapCount c4A c4B = 1 ∧
    some [(0 : Int), 2] ≠ some [0, 1 - (overlapCount c4A c4B : Int)] ∧
    (edb_add c4A c4B).map (fun r => r.dates.getD 2 0) = .ok 20 ∧
    c4B.dates.getD 1 0 = 30 ∧ (20 : ℚ) ≠ 30 := by
  refine ⟨?_, ?_, ?_, ?_, ?_, ?_⟩ <;> decide

/-- Claim C4 (amended theorem): in `Add(a, b)` with `a` starting earlier and
`b`'s blocks not the single-sentinel form, each of `b`'s block-start indices
is shifted *up* by `overlapCount` (the source subtracts
`overlap_len = uniqueSampleCount - totalSamplesBeforeDedup ≤ 0`), and the
result's block list is the earlier operand's blocks (empty contribution when
sentinel) concatenated with these shifted blocks.  The shifted indices do
not in general address the samples they addressed in the later operand (see
the counterexample). -/
theorem C4_block_shift_amended (a b : EdbMnemonic) (lbs : List Int)
    (hid : a.mnemonic_identifier = b.mnemonic_identifier)
    (ha : a.dates ≠ []) (hb : b.dates ≠ [])
    (hord : listMinQ a.dates < listMinQ b.dates)
    (hlb : b.blocks = some lbs) :
    ∃ r, edb_add a b = .ok r ∧
      r.blocks = some ((a.blocks.getD []) ++
        lbs.map (fun x => x + (overlapCount a b : Int))) := by
  have hshift : ∀ x : Int,
      x - ((npUniqueDates (a.dates ++ b.dates)).length : Int)
          + ((a.dates ++ b.dates).length : Int)
        = x + (overlapCount a b : Int) := by
    intro x
    have h1 : (npUniqueDates (addAllDates a b)).length ≤ (addAllDates a b).length :=
      length_npUniqueDates_le _
    have h2 : addAllDates a b = a.dates ++ b.dates := by
      simp [addAllDates, hord]
    rw [h2] at h1
    rw [overlapCount, h2]
    push_cast [Nat.cast_sub h1]
    ring
  unfold edb_add
  rw [if_neg (not_not_intro hid),
    if_neg (fun h => ha (List.length_eq_zero.1 h)),
    if_neg (fun h => hb (List.length_eq_zero.1 h)), if_pos hord]
  refine ⟨_, rfl, ?_⟩
  rw [hlb]
  cases hea : a.blocks with
  | none =>
    simp only [Option.getD_none, List.nil_append]
    congr 1
    apply List.map_congr_left
    intro x _
    rw [← hshift x]
    ring
  | some ebs =>
    simp only [Option.getD_some]
    congr 1
    congr 1
    apply List.map_congr_left
    intro x _
    rw [← hshift x]
    ring

/-- Claim C4 (witness): the amended block rule at the concrete series of the
counterexample: result blocks are `[0] ++ [1 + 1] = [0, 2]`. -/
theorem C4_block_shift_amended_witness :
    ∃ r, edb_add c4A c4B = .ok r ∧
      r.blocks = some ((c4A.blocks.getD []) ++
        [(1 : Int)].map (fun x => x + (overlapCount c4A c4B : Int))) :=
  C4_block_shift_amended c4A c4B [1] rfl (by decide) (by decide) (by decide) rfl

/-- Claim C9 (amended theorem): `Add(EmptySeries, x)` always returns `x`
itself, and `Add(x, EmptySeries)` returns `x` itself whenever `x` has at
least one sample; only for an empty `x` does `Add(x, EmptySeries)` return
the empty operand instead (whose samples agree with `x`'s but whose blocks
may differ, see the counterexample). -/
theorem C9_empty_identity_amended (a b : EdbMnemonic)
    (hid : a.mnemonic_identifier = b.mnemonic_identifier) :
    (a.dates = [] → edb_add a b = .ok b) ∧
    (a.dates ≠ [] → b.dates = [] → edb_add a b = .ok a) := by
  constructor
  · intro hA
    unfold edb_add
    rw [if_neg (not_not_intro hid), if_pos (by simp [hA])]
  · intro hA hB
    unfold edb_add
    rw [if_neg (not_not_intro hid),
      if_neg (fun h => hA (List.length_eq_zero.1 h)), if_pos (by simp [hB])]

/-- Non-empty series sharing the C9 identifier. -/
def c9Y : EdbMnemonic := ⟨"SA_ZADUCMDX", [0, 5], [7, 8], true, some [0]⟩

/-- Claim C9 (witness): the amended identity at concrete series: adding the
empty series on either side of a non-empty `x` returns `x` itself. -/
theorem C9_empty_identity_witness :
    edb_add c9Empty c9Y = .ok c9Y ∧ edb_add c9Y c9Empty = .ok c9Y :=
  ⟨(C9_empty_identity_amended c9Empty c9Y rfl).1 rfl,
   (C9_empty_identity_amended c9Y c9Empty rfl).2 (by decide) rfl⟩

/-- The duration-weighted multiset described by the amended claim C6: each
value *except the last* is repeated `int(delta / min_delta * 100)` times,
the delta being the time to the next sample; the final value has no
following sample and contributes nothing. -/
def weightedExpansion (times values : List ℚ) : List ℚ :=
  (List.range (times.length - 1)).flatMap (fun i =>
    List.replicate
      (Int.toNat (Int.floor
        ((times.getD (i + 1) 0 - times.getD i 0) / minDelta times * 100)))
      (values.getD i 0))

/-- Claim C6 (counterexample): the claim says every value of the window,
including the last, contributes to the duration-weighted multiset.  For the
change-only window with times `[0, 1, 2]` and values `[1, 1, 100]`, the
multiset the source hands to sigma-clipping is 200 copies of `1`: the final
value `100` does not contribute at all, because `zip(values, time_fractions)`
truncates to the length of `time_fractions` (one shorter than `values`). -/
theorem C6_last_value_cex :
    change_only_multiset [0, 1, 2] [1, 1, 100] =
      List.replicate 100 (1 : ℚ) ++ List.replicate 100 (1 : ℚ) ∧
    (100 : ℚ) ∈ ([1, 1, 100] : List ℚ) ∧
    (100 : ℚ) ∉ change_only_multiset [0, 1, 2] [1, 1, 100] := by
  have heq : change_only_multiset [0, 1, 2] [1, 1, 100] =
      List.replicate 100 (1 : ℚ) ++ List.replicate 100 (1 : ℚ) := by
    have hf : change_only_fractions [0, 1, 2] = [100, 100] := by
      simp [change_only_fractions, change_only_deltas, minDelta, listMinQ]
      norm_num
    have hp : pyInt 100 = 100 := by simp [pyInt]
    simp only [change_only_multiset, hf, hp, List.zip_cons_cons, List.zip_nil_right,
      List.zip_nil_left, List.map_cons, List.map_nil, List.flatten_cons, List.flatten_nil,
      List.append_nil]
    norm_num
    decide
  refine ⟨heq, by norm_num, ?_⟩
  rw [heq]
  intro h
  rcases List.mem_append.1 h with h1 | h1 <;>
    · have h2 := List.eq_of_mem_replicate h1
      norm_num at h2

/-- Claim C6 (amended theorem): for a change-only window of `n >= 2`
strictly increasing numeric samples, `change_only_stats` returns the
sigma-clipped statistics of the multiset in which each sample's value
*except the last* appears `int(delta / min_delta * 100)` times, `delta`
being its time to the next sample; the last value contributes nothing.
Values held longer are therefore weighted proportionally more (up to the
integer truncation), so two change-only series with identical values but
different hold-durations generally produce different multisets. -/
theorem C6_duration_weighting_amended (sclip : List ℚ → ℚ × ℚ × ℚ)
    (times values : List ℚ) (h2 : 2 ≤ times.length)
    (hsorted : times.Sorted (· < ·)) (hl : values.length = times.length) :
    change_only_stats sclip times values =
      .clipped (sclip (change_only_multiset times values)) ∧
    change_only_multiset times values = weightedExpansion times values := by
  constructor
  · rw [change_only_stats, if_neg (by omega), if_neg (by omega)]
  · have hdpos : ∀ i, i < times.length - 1 →
        0 < times.getD (i + 1) 0 - times.getD i 0 := by
      intro i hi
      have hordered := List.pairwise_iff_getElem.1 hsorted i (i + 1)
        (by omega) (by omega) (by omega)
      rw [List.getD_eq_getElem _ _ (by omega), List.getD_eq_getElem _ _ (by omega)]
      linarith
    have hdnil : change_only_deltas times ≠ [] := by
      intro hnil
      have := change_only_deltas_length times
      rw [hnil] at this
      simp at this
      omega
    have hdeltas_pos : ∀ d ∈ change_only_deltas times, 0 < d := by
      intro d hd
      obtain ⟨i, hi, hdi⟩ := List.mem_iff_getElem.1 hd
      have hilen : i < times.length - 1 := by
        have := change_only_deltas_length times
        omega
      rw [← hdi, ← List.getD_eq_getElem _ 0 hi,
        change_only_deltas_getD times i (by omega)]
      exact hdpos i hilen
    have hmin_pos : 0 < minDelta times :=
      hdeltas_pos _ (listMinQ_mem hdnil)
    rw [change_only_multiset, zip_flatten_indexed]
    have hminlen : min values.length (change_only_fractions times).length
        = times.length - 1 := by
      have hfl : (change_only_fractions times).length = times.length - 1 := by
        simp [change_only_fractions, change_only_deltas_length]
      rw [hfl, hl]
      omega
    rw [hminlen, weightedExpansion]
    apply List.flatMap_congr
    intro i hi
    have hi' : i < times.length - 1 := by simpa using hi
    have hfrac : (change_only_fractions times).getD i 0
        = (times.getD (i + 1) 0 - times.getD i 0) / minDelta times * 100 := by
      rw [change_only_fractions,
        getD_map _ _ i (by rw [change_only_deltas_length]; omega) 0 0,
        change_only_deltas_getD times i (by omega)]
    have hδ := hdpos i hi'
    simp only [hfrac]
    rw [pyInt_eq_floor (by positivity)]

/-- Concrete change-only window for the C6 witness: values `[4, 7, 9]`, the
first held 1 s, the second held 10 s. -/
def c6Times : List ℚ := [0, 1, 11]

/-- Values of the C6 witness window. -/
def c6Vals : List ℚ := [4, 7, 9]

/-- Claim C6 (witness): the amended weighting at a concrete window with
unequal hold-durations. -/
theorem C6_duration_weighting_witness :
    change_only_stats (fun l => (0, 0, (l.length : ℚ))) c6Times c6Vals =
      .clipped ((fun l => ((0 : ℚ), (0 : ℚ), (l.length : ℚ)))
        (change_only_multiset c6Times c6Vals)) ∧
    change_only_multiset c6Times c6Vals = weightedExpansion c6Times c6Vals :=
  C6_duration_weighting_amended (fun l => (0, 0, (l.length : ℚ))) c6Times c6Vals
    (by decide) (by decide) (by decide)

theorem headD_map (f : ℚ → ℚ) {l : List ℚ} (hne : l ≠ []) (d d' : ℚ) :
    (l.map f).headD d = f (l.headD d') := by
  cases l with
  | nil => exact absurd rfl hne
  | cons x xs => simp

theorem getLastD_map (f : ℚ → ℚ) {l : List ℚ} (hne : l ≠ []) (d d' : ℚ) :
    (l.map f).getLastD d = f (l.getLastD d') := by
  rw [List.getLastD_eq_getLast?, List.getLastD_eq_getLast?, List.getLast?_map,
    List.getLast?_eq_getLast _ hne]
  simp

theorem idxWhere_ne_nil_exists {α : Type} (p : α → Bool) :
    ∀ l : List α, idxWhere p l ≠ [] → ∃ x ∈ l, p x := by
  intro l
  induction l with
  | nil => intro h; exact absurd rfl h
  | cons x xs ih =>
    intro h
    by_cases hx : p x
    · exact ⟨x, List.mem_cons_self _ _, hx⟩
    · rw [show idxWhere p (x :: xs) = (idxWhere p xs).map (· + 1) by simp [idxWhere, hx]] at h
      have hxs : idxWhere p xs ≠ [] := by
        intro hnil
        rw [hnil] at h
        exact h rfl
      obtain ⟨y, hy, hpy⟩ := ih hxs
      exact ⟨y, List.mem_cons_of_mem _ hy, hpy⟩

/-- Claim C2 (amended theorem): interpolation never emits a timestamp before
`dataStart`, for either encoding; for all-points encoding it additionally
never emits a timestamp after `dataEnd`.  (For change-only encoding, targets
past `dataEnd` *are* emitted carrying the held last value — see the
counterexample.) -/
theorem C2_no_extrapolation_amended (m : EdbMnemonic) (times : List ℚ)
    (r : EdbMnemonic) (hs : m.dates.Sorted (· ≤ ·)) (hne : m.dates ≠ [])
    (hok : interpolate m times = .ok r) :
    ∀ t ∈ r.dates, dataStartTime m ≤ t ∧ (m.allPoints = true → t ≤ dataEndTime m) := by
  intro t ht
  have hdates : ∃ nd nv, interpTab m times = .ok (some (nd, nv)) ∧ r.dates = nd := by
    unfold interpolate at hok
    cases htab : interpTab m times with
    | error e =>
      rw [htab] at hok
      simp at hok
    | ok o =>
      match o with
      | none =>
        rw [htab] at hok
        simp at hok
      | some (nd, nv) =>
        rw [htab] at hok
        have hok2 : (match adjustBlocks m nd with
            | Except.error e => Except.error e
            | Except.ok newBlocks =>
              Except.ok (EdbMnemonic.mk m.mnemonic_identifier nd nv m.allPoints
                (some newBlocks))) = Except.ok r := hok
        cases hadj : adjustBlocks m nd with
        | error e =>
          rw [hadj] at hok2
          simp at hok2
        | ok nb =>
          rw [hadj] at hok2
          have hok3 : Except.ok (EdbMnemonic.mk m.mnemonic_identifier nd nv m.allPoints
              (some nb)) = Except.ok r := hok2
          simp only [Except.ok.injEq] at hok3
          exact ⟨nd, nv, rfl, by rw [← hok3]⟩
  obtain ⟨nd, nv, htab, hrd⟩ := hdates
  rw [hrd] at ht
  by_cases hap : m.allPoints = false
  · -- change-only branch: every emitted timestamp has a sample at or before it
    rw [interpTab, if_pos hap] at htab
    have htab2 : Except.ok (if 0 < (coInterpPairs m.dates m.euvalues times).length then
          some ((coInterpPairs m.dates m.euvalues times).map Prod.fst,
            (coInterpPairs m.dates m.euvalues times).map Prod.snd)
        else none) = Except.ok (some (nd, nv)) := htab
    have hnd : nd = (coInterpPairs m.dates m.euvalues times).map Prod.fst := by
      by_cases hp : 0 < (coInterpPairs m.dates m.euvalues times).length
      · rw [if_pos hp] at htab2
        simp only [Except.ok.injEq, Option.some.injEq, Prod.mk.injEq] at htab2
        exact htab2.1.symm
      · rw [if_neg hp] at htab2
        simp at htab2
    rw [hnd] at ht
    obtain ⟨pr, hpr, hprt⟩ := List.mem_map.1 ht
    obtain ⟨t0, ht0, hg⟩ := List.mem_filterMap.1 hpr
    have hg2 : (match (idxWhere (fun d => decide (d ≤ t0)) m.dates).getLast? with
        | some i => some (t0, m.euvalues.getD i 0)
        | none => (none : Option (ℚ × ℚ))) = some pr := hg
    constructor
    · cases hidx : (idxWhere (fun d => decide (d ≤ t0)) m.dates).getLast? with
      | none =>
        rw [hidx] at hg2
        simp at hg2
      | some i =>
        rw [hidx] at hg2
        have hpr2 : (t0, m.euvalues.getD i 0) = pr := by simpa using hg2
        have hnenil : idxWhere (fun d => decide (d ≤ t0)) m.dates ≠ [] := by
          intro hnil
          rw [hnil] at hidx
          simp at hidx
        obtain ⟨d, hd, hdle⟩ := idxWhere_ne_nil_exists _ _ hnenil
        have hdle' : d ≤ t0 := of_decide_eq_true hdle
        have hmind : dataStartTime m ≤ d := listMinQ_le d hd
        have htt0 : t = t0 := by rw [← hprt, ← hpr2]
        rw [htt0]
        exact le_trans hmind hdle'
    · intro hapt
      rw [hapt] at hap
      simp at hap
  · -- all-points branch
    rw [interpTab, if_neg hap] at htab
    by_cases hlen2 : 2 ≤ m.dates.length
    · rw [if_pos hlen2] at htab
      simp only [Except.ok.injEq, Option.some.injEq, Prod.mk.injEq] at htab
      have hnd : nd = (apInterpTimes m times).map
          (fun ot => add_time_offset ot (m.dates.headD 0)) := htab.1.symm
      rw [hnd] at ht
      obtain ⟨ot, hot, hott⟩ := List.mem_map.1 ht
      have hcond := List.of_mem_filter hot
      rw [Bool.and_eq_true, decide_eq_true_eq, decide_eq_true_eq] at hcond
      have hhead : (apOffsets m).headD 0
          = create_time_offset (m.dates.headD 0) (m.dates.headD 0) :=
        headD_map _ hne 0 0
      have hlastd : (apOffsets m).getLastD 0
          = create_time_offset (m.dates.getLastD 0) (m.dates.headD 0) :=
        getLastD_map _ hne 0 0
      rw [hhead, hlastd] at hcond
      simp only [create_time_offset] at hcond
      have ht' : t = m.dates.headD 0 + ot := by
        rw [← hott, add_time_offset]
      have hstart : dataStartTime m = m.dates.headD 0 := listMinQ_sorted_head hs
      have hend : dataEndTime m = m.dates.getLastD 0 := listMaxQ_sorted_getLast hs
      constructor
      · rw [hstart, ht']
        linarith [hcond.1]
      · intro _
        rw [hend, ht']
        linarith [hcond.2]
    · rw [if_neg hlen2] at htab
      simp at htab

/-- All-points series explored by the C2 witness. -/
def c2WitnessM : EdbMnemonic := ⟨"SA_ZATTGQ1", [0, 10], [0, 100], true, none⟩

/-- Result of interpolating the C2 witness series at time 5 s. -/
def c2WitnessRes : EdbMnemonic := ⟨"SA_ZATTGQ1", [5], [50], true, some [1]⟩

/-- Claim C2 (witness): the amended no-extrapolation bound instantiated for
an all-points series over `[0 s, 10 s]` interpolated at 5 s: the emitted
timestamp 5 lies within `[dataStart, dataEnd] = [0, 10]`. -/
theorem C2_no_extrapolation_witness :
    dataStartTime c2WitnessM ≤ 5 ∧
      (c2WitnessM.allPoints = true → (5 : ℚ) ≤ dataEndTime c2WitnessM) :=
  C2_no_extrapolation_amended c2WitnessM [5] c2WitnessRes (by decide) (by decide)
    (by norm_num [interpolate, interpTab, apOffsets, apInterpTimes, c2WitnessM,
      c2WitnessRes, create_time_offset, add_time_offset, npInterp, npInterpGo,
      adjustBlocks, adjustBlocksGo, idxWhere, List.filter])
    5 (by decide)

/-- Claim C10: `Multiply(a, b)` with `len(b) >= 2` mutates its right operand
in place on the success path: whenever `Multiply` succeeds, the final state
of the right operand is exactly `b` interpolated onto `a`'s timestamps
(samples replaced, blocks recomputed by the interpolation): it no longer
holds its original data. -/
theorem C10_mul_mutates_right_operand (a b r bf : EdbMnemonic)
    (h2 : 2 ≤ b.dates.length) (hok : edb_mul a b = .ok (r, bf)) :
    interpolate b a.dates = .ok bf := by
  unfold edb_mul at hok
  rw [if_neg (by omega)] at hok
  cases hint : interpolate b a.dates with
  | error e =>
    rw [hint] at hok
    simp at hok
  | ok b2 =>
    rw [hint] at hok
    have hok2 : (match mulCombine a b2 with
        | Except.error e => Except.error e
        | Except.ok res => Except.ok (res, b2)) = Except.ok (r, bf) := hok
    cases hcomb : mulCombine a b2 with
    | error e =>
      rw [hcomb] at hok2
      simp at hok2
    | ok res =>
      rw [hcomb] at hok2
      have hok3 : Except.ok (res, b2) = Except.ok (r, bf) := hok2
      simp only [Except.ok.injEq, Prod.mk.injEq] at hok3
      rw [hok3.2]

/-- Left operand of the C10 witness. -/
def c10A : EdbMnemonic := ⟨"SE_ZINRCICE1", [0, 10], [2, 3], true, none⟩

/-- Right operand of the C10 witness: three samples, the last beyond `a`'s
range, so interpolation genuinely changes its data. -/
def c10B : EdbMnemonic := ⟨"SE_ZINRCICE1", [0, 10, 20], [4, 5, 6], true, none⟩

/-- Final state of the C10 witness right operand after `Multiply`. -/
def c10Bf : EdbMnemonic := ⟨"SE_ZINRCICE1", [0, 10], [4, 5], true, some [2]⟩

/-- Product instance of the C10 witness. -/
def c10R : EdbMnemonic := ⟨"SE_ZINRCICE1", [0, 10], [8, 15], true, none⟩

/-- Claim C10 (witness): at concrete operands the mutation theorem applies,
and the right operand's final samples really differ from its originals
(the sample at 20 s was dropped, values replaced, blocks recomputed). -/
theorem C10_mul_mutates_witness :
    interpolate c10B c10A.dates = .ok c10Bf ∧ c10Bf.dates ≠ c10B.dates ∧
    c10Bf.blocks ≠ c10B.blocks :=
  ⟨C10_mul_mutates_right_operand c10A c10B c10R c10Bf (by decide)
      (by norm_num [edb_mul, mulCombine, interpolate, interpTab, apOffsets, apInterpTimes,
        c10A, c10B, c10Bf, c10R, create_time_offset, add_time_offset, npInterp, npInterpGo,
        adjustBlocks, adjustBlocksGo, idxWhere, List.filter, npUniqueDates, dedupFirst,
        dedupFirstAux, List.insertionSort, List.orderedInsert, firstOccValue]),
    by decide, by decide⟩
